import Mathlib

/-!
Verification of the gradient reading transformer of
`src/apps/readest-app/src/services/transformers/gradient.ts`.

The repository contains two variants of `gradientTransformer.transform`:
a wrapper-capable variant (wraps each paragraph's inner markup in a
`<span class="g-clip g-lN">` element) and a classes-only variant (adds
`g-line g-lN` to the paragraph's class attribute).  Both scan the content
with the JavaScript regex `/<p([^>]*)>([\s\S]*?)<\/p>/gi`, thread a local
`paragraphIndex` counter starting at 0, and detect an existing class
attribute with `/class="([^"]*)"/i`.  The wrapper variant additionally
guards against double wrapping with
`/<span\s+class=["'][^"']*\bg-clip\b[^"']*["']/`.

Content is modelled as `List Char`.  The regex scans are modelled by
recursive scanners that implement exactly the semantics of those three
patterns (leftmost match, greedy `[^>]*` up to the literal `>`, lazy
`[\s\S]*?` up to the first case-insensitive `</p>`, continuation after the
end of each match, no empty matches are possible).  The scanners use a
fuel argument (instantiated with the content length, an upper bound on
the number of scan steps) so that they are structurally recursive and
kernel-reducible.
-/

/-- JavaScript word characters `[A-Za-z0-9_]`, as used by the `\b` word
boundary assertion. -/
def isWordChar (c : Char) : Bool :=
  (97 ≤ c.val && c.val ≤ 122) || (65 ≤ c.val && c.val ≤ 90) ||
    (48 ≤ c.val && c.val ≤ 57) || c == '_'

/-- Quote characters matched by the `["']` classes of the clip-guard regex. -/
def isQuoteChar (c : Char) : Bool := c == '"' || c == '\''

/-- JavaScript `\s` whitespace characters. -/
def jsSpace (c : Char) : Bool :=
  c == ' ' || c == '\t' || c == '\n' || c.val == 11 || c.val == 12 || c == '\r' ||
  c.val == 160 || c.val == 0x1680 || (0x2000 ≤ c.val && c.val ≤ 0x200a) ||
  c.val == 0x2028 || c.val == 0x2029 || c.val == 0x202f || c.val == 0x205f ||
  c.val == 0x3000 || c.val == 0xfeff

/-- The letter `p` case-insensitively, as matched by `p` under the `i` flag. -/
def pTagChar (c : Char) : Bool := c == 'p' || c == 'P'

/-- Whether the list starts with `</p>` case-insensitively, i.e. the literal
`<\/p>` part of the paragraph regex (only the letter is case-insensitive). -/
def startsCloseP : List Char → Bool
  | c1 :: c2 :: c3 :: c4 :: _ => c1 == '<' && c2 == '/' && pTagChar c3 && c4 == '>'
  | _ => false

/-- Lazy search `([\s\S]*?)<\/p>`: split the list at the first occurrence of a
case-insensitive `</p>`, returning the characters before it and the characters
after the four-character close tag. -/
def findCloseP : List Char → Option (List Char × List Char)
  | [] => none
  | c :: cs =>
    if startsCloseP (c :: cs) then some ([], cs.drop 3)
    else
      match findCloseP cs with
      | some (inner, rest) => some (c :: inner, rest)
      | none => none

/-- Greedy `([^>]*)` followed by the literal `>`: take all characters up to the
first `>`, require that `>`, and return (attributes, remainder after `>`). -/
def takeAttrs : List Char → Option (List Char × List Char)
  | [] => none
  | c :: cs =>
    if c == '>' then some ([], cs)
    else
      match takeAttrs cs with
      | some (a, r) => some (c :: a, r)
      | none => none

/-- One attempt of `/<p([^>]*)>([\s\S]*?)<\/p>/i` anchored at the head of the
list: on success returns (attributes, inner markup, remainder after the close
tag). -/
def matchP (l : List Char) : Option (List Char × List Char × List Char) :=
  match l with
  | c :: p :: rest =>
    if c == '<' && pTagChar p then
      match takeAttrs rest with
      | some (attrs, afterOpen) =>
        match findCloseP afterOpen with
        | some (inner, r) => some (attrs, inner, r)
        | none => none
      | none => none
    else none
  | _ => none

/-- Whether the list starts with `class="` case-insensitively (the fixed part
of `/class="([^"]*)"/i`; only the letters are case-insensitive). -/
def startsClassEq : List Char → Bool
  | c1 :: c2 :: c3 :: c4 :: c5 :: c6 :: c7 :: _ =>
    (c1 == 'c' || c1 == 'C') && (c2 == 'l' || c2 == 'L') && (c3 == 'a' || c3 == 'A') &&
      (c4 == 's' || c4 == 'S') && (c5 == 's' || c5 == 'S') && c6 == '=' && c7 == '"'
  | _ => false

/-- Split at the first `"`, returning the characters before it and after it. -/
def splitAtQuote : List Char → Option (List Char × List Char)
  | [] => none
  | c :: cs =>
    if c == '"' then some ([], cs)
    else
      match splitAtQuote cs with
      | some (a, b) => some (c :: a, b)
      | none => none

/-- First match of `/class="([^"]*)"/i` in the list: returns (characters
before the match, the captured group `[^"]*`, characters after the closing
quote).  A candidate `class="` with no subsequent `"` cannot be followed by
any later candidate (a later `class="` contains a `"`), so returning `none`
in that branch agrees with the JavaScript regex search. -/
def findClassAttr : List Char → Option (List Char × List Char × List Char)
  | [] => none
  | c :: cs =>
    if startsClassEq (c :: cs) then
      match splitAtQuote (cs.drop 6) with
      | some (classes, rest) => some ([], classes, rest)
      | none => none
    else
      match findClassAttr cs with
      | some (pre, classes, rest) => some (c :: pre, classes, rest)
      | none => none

/-- The result of `attrs.replace(classRegex, (_m, classes) =>
`class="${classes} ${newTokens}"`)`: the first `class="..."` occurrence is
replaced, keeping the captured classes verbatim and appending the new tokens
after a space. -/
def replaceClassAttr (attrs newTokens : List Char) : List Char :=
  match findClassAttr attrs with
  | some (pre, classes, rest) =>
    pre ++ ['c', 'l', 'a', 's', 's', '=', '"'] ++ classes ++ ' ' :: newTokens ++ '"' :: rest
  | none => attrs

/-- The constant structural line marker `g-line`. -/
def lineClass : List Char := ['g', '-', 'l', 'i', 'n', 'e']

/-- The shade token `g-l${paragraphIndex % 4}` of the wrapper variant. -/
def shadeClass (k : Nat) : List Char := ['g', '-', 'l', Nat.digitChar (k % 4)]

/-- The combined token string `g-line g-l${paragraphIndex % 4}` of the
classes-only variant. -/
def gradientClass (k : Nat) : List Char := lineClass ++ ' ' :: shadeClass k

/-- Attribute rewriting of the classes-only variant: append `g-line g-lN` to
an existing double-quoted class attribute, or inject
` class="g-line g-lN"` when there is none. -/
def classesOnlyAttrs (k : Nat) (attrs : List Char) : List Char :=
  if (findClassAttr attrs).isSome then replaceClassAttr attrs (gradientClass k)
  else attrs ++ ' ' :: ['c', 'l', 'a', 's', 's', '=', '"'] ++ gradientClass k ++ ['"']

/-- The per-match replacement of the classes-only variant:
`<p${attrs}>${inner}</p>` with the rewritten attributes. -/
def classesOnlyCallback (k : Nat) (attrs inner : List Char) : List Char :=
  '<' :: 'p' :: classesOnlyAttrs k attrs ++ '>' :: inner ++ ['<', '/', 'p', '>']

/-- Attribute rewriting of the wrapper variant: only the line marker `g-line`
is added to the paragraph's class attribute (the shade token goes on the
wrapper span instead). -/
def wrapperAttrs (attrs : List Char) : List Char :=
  if (findClassAttr attrs).isSome then replaceClassAttr attrs lineClass
  else attrs ++ ' ' :: ['c', 'l', 'a', 's', 's', '=', '"'] ++ lineClass ++ ['"']

/-- The wrapper span `<span class="g-clip g-lN">${inner}</span>`. -/
def clipSpan (k : Nat) (inner : List Char) : List Char :=
  ['<', 's', 'p', 'a', 'n', ' ', 'c', 'l', 'a', 's', 's', '=', '"',
      'g', '-', 'c', 'l', 'i', 'p', ' '] ++ shadeClass k ++
    '"' :: '>' :: inner ++ ['<', '/', 's', 'p', 'a', 'n', '>']

/-- Whether the list starts with the literal `g-clip`. -/
def startsGClip : List Char → Bool
  | c1 :: c2 :: c3 :: c4 :: c5 :: c6 :: _ =>
    c1 == 'g' && c2 == '-' && c3 == 'c' && c4 == 'l' && c5 == 'i' && c6 == 'p'
  | _ => false

/-- Word-boundary check to the right of `g-clip`: the next character must not
be a word character; at the end of the quote-delimited run the following
character is the closing quote, which is not a word character. -/
def nilOrNonWord : List Char → Bool
  | [] => true
  | c :: _ => !isWordChar c

/-- Search for `\bg-clip\b` inside the quote-free run, tracking the previous
character (initially the opening quote) for the left word boundary. -/
def runHasGClip : Char → List Char → Bool
  | _, [] => false
  | prev, c :: cs =>
    (startsGClip (c :: cs) && !isWordChar prev && nilOrNonWord ((c :: cs).drop 6))
      || runHasGClip c cs

/-- The part `class=["'][^"']*\bg-clip\b[^"']*["']` of the clip-guard regex,
anchored at the head of the list (case-sensitive: the guard regex has no
flags). -/
def clipTail : List Char → Bool
  | c1 :: c2 :: c3 :: c4 :: c5 :: c6 :: q :: rest =>
    c1 == 'c' && c2 == 'l' && c3 == 'a' && c4 == 's' && c5 == 's' && c6 == '=' &&
      isQuoteChar q &&
      !((rest.dropWhile (fun c => !isQuoteChar c)).isEmpty) &&
      runHasGClip q (rest.takeWhile (fun c => !isQuoteChar c))
  | _ => false

/-- One attempt of `/<span\s+class=["'][^"']*\bg-clip\b[^"']*["']/` anchored at
the head of the list. -/
def clipAt : List Char → Bool
  | c1 :: c2 :: c3 :: c4 :: c5 :: c6 :: rest =>
    c1 == '<' && c2 == 's' && c3 == 'p' && c4 == 'a' && c5 == 'n' && jsSpace c6 &&
      clipTail (rest.dropWhile jsSpace)
  | _ => false

/-- The anti-double-wrap test
`/<span\s+class=["'][^"']*\bg-clip\b[^"']*["']/.test(inner)`. -/
def hasClip : List Char → Bool
  | [] => false
  | c :: cs => clipAt (c :: cs) || hasClip cs

/-- The per-match replacement of the wrapper variant:
`<p${attrs}>${wrappedInner}</p>` where the inner markup is wrapped in a clip
span unless it already contains one. -/
def wrapperCallback (k : Nat) (attrs inner : List Char) : List Char :=
  '<' :: 'p' :: wrapperAttrs attrs ++ '>' ::
    (if hasClip inner then inner else clipSpan k inner) ++ ['<', '/', 'p', '>']

/-- The global replace `content.replace(/<p([^>]*)>([\s\S]*?)<\/p>/gi, f)`
threading the `paragraphIndex` counter `k`: at each position the pattern is
attempted; on a match the replacement is emitted, the counter is incremented
and scanning resumes after the match; otherwise the character is copied.  The
pattern cannot match the empty string, so each step consumes at least one
character and the fuel (instantiated with the content length) never runs out. -/
def replaceParagraphsAux (f : Nat → List Char → List Char → List Char) :
    Nat → Nat → List Char → List Char
  | _, _, [] => []
  | 0, _, l => l
  | fuel + 1, k, c :: cs =>
    match matchP (c :: cs) with
    | some (attrs, inner, rest) =>
      f k attrs inner ++ replaceParagraphsAux f fuel (k + 1) rest
    | none => c :: replaceParagraphsAux f fuel k cs

/-- The configuration object (`ViewSettings`); `gradientEnabled` is optional
and an absent flag (`none`, i.e. JavaScript `undefined`) is falsy.  Other
settings are irrelevant to this transformer. -/
structure ViewSettings where
  gradientEnabled : Option Bool
  otherSettings : List (String × Bool)
deriving DecidableEq

/-- The transform context: the content string and the view settings. -/
structure TransformCtx where
  content : List Char
  viewSettings : ViewSettings
deriving DecidableEq

/-- The wrapper-capable variant of `gradientTransformer.transform`: early-exit
identity when the flag is falsy, otherwise the global paragraph replace with
`paragraphIndex` initialized to 0 locally in this call. -/
def gradientTransformWrapper (ctx : TransformCtx) : List Char :=
  if ctx.viewSettings.gradientEnabled.getD false then
    replaceParagraphsAux wrapperCallback ctx.content.length 0 ctx.content
  else ctx.content

/-- The classes-only variant of `gradientTransformer.transform`. -/
def gradientTransformClassesOnly (ctx : TransformCtx) : List Char :=
  if ctx.viewSettings.gradientEnabled.getD false then
    replaceParagraphsAux classesOnlyCallback ctx.content.length 0 ctx.content
  else ctx.content

/-- A paragraph block `<p${attrs}>${inner}</p>` written with lowercase tags
(the form both variants emit, and the generic form of a source block). -/
def mkBlock (a i : List Char) : List Char :=
  '<' :: 'p' :: a ++ '>' :: i ++ ['<', '/', 'p', '>']

/-- Content made of glue text, paragraph blocks (glue, attributes, inner) and
trailing text. -/
def mkContent : List (List Char × List Char × List Char) → List Char → List Char
  | [], t => t
  | (g, a, i) :: bs, t => g ++ (mkBlock a i ++ mkContent bs t)

/-- The result of the global replace on such content: each block is replaced
by the callback applied at the threaded counter value. -/
def mkRendered (f : Nat → List Char → List Char → List Char) :
    Nat → List (List Char × List Char × List Char) → List Char → List Char
  | _, [], t => t
  | k, (g, a, i) :: bs, t => g ++ (f k a i ++ mkRendered f (k + 1) bs t)

/-- The effect of one wrapper-variant match on one block, at counter `k`. -/
def wrapStep (k : Nat) (b : List Char × List Char × List Char) :
    List Char × List Char × List Char :=
  (b.1, wrapperAttrs b.2.1, if hasClip b.2.2 then b.2.2 else clipSpan k b.2.2)

/-- The effect of one wrapper-variant pass on a block list, threading the
counter. -/
def wrapBlocks : Nat → List (List Char × List Char × List Char) →
    List (List Char × List Char × List Char)
  | _, [] => []
  | k, b :: bs => wrapStep k b :: wrapBlocks (k + 1) bs

/-- One match found by the scan: the unmatched text before it, the exact
matched span, and the two captured groups (attributes, inner markup). -/
structure PBlock where
  pre : List Char
  matched : List Char
  attrs : List Char
  inner : List Char
deriving DecidableEq

/-- The pure scan underlying the global replace: the list of matches in
document order together with the trailing unmatched text. -/
def parseAux : Nat → List Char → List PBlock × List Char
  | _, [] => ([], [])
  | 0, l => ([], l)
  | fuel + 1, c :: cs =>
    match matchP (c :: cs) with
    | some (a, i, rest) =>
      (⟨[], (c :: cs).take ((c :: cs).length - rest.length), a, i⟩ :: (parseAux fuel rest).1,
        (parseAux fuel rest).2)
    | none =>
      match parseAux fuel cs with
      | ([], t) => ([], c :: t)
      | (b :: bs, t) => ({ b with pre := c :: b.pre } :: bs, t)

/-- The scan of a content, with enough fuel for the whole content. -/
def parseBlocks (l : List Char) : List PBlock × List Char := parseAux l.length l

/-- Rebuild the replace output from the scan: unmatched text verbatim, each
match replaced by the callback at the threaded counter. -/
def renderParsed (f : Nat → List Char → List Char → List Char) :
    Nat → List PBlock → List Char → List Char
  | _, [], t => t
  | k, b :: bs, t => b.pre ++ (f k b.attrs b.inner ++ renderParsed f (k + 1) bs t)

/-- Rebuild the original content from the scan: unmatched text and matched
spans verbatim. -/
def joinParsed : List PBlock → List Char → List Char
  | [], t => t
  | b :: bs, t => b.pre ++ (b.matched ++ joinParsed bs t)

/-- The sequence of `paragraphIndex` values passed to the replacement
callback, one per match in document order, threaded exactly as in the code
(initial value, then incremented once inside each match). -/
def scanCountersAux : Nat → Nat → List Char → List Nat
  | _, _, [] => []
  | 0, _, _ => []
  | fuel + 1, k, c :: cs =>
    match matchP (c :: cs) with
    | some (_, _, rest) => k :: scanCountersAux fuel (k + 1) rest
    | none => scanCountersAux fuel k cs

/-- Counter values of a full scan starting from the per-call initial value 0. -/
def scanCounters (l : List Char) : List Nat := scanCountersAux l.length 0 l

/-- The shade index (`paragraphIndex % 4`, `PALETTE_SIZE = 4`) attached to
each processed block, in document order. -/
def shadeIndices (l : List Char) : List Nat := (scanCounters l).map (fun k => k % 4)

/-- Number of occurrences of a (nonempty) pattern in a list, counting start
positions. -/
def countOccs (pat : List Char) : List Char → Nat
  | [] => 0
  | c :: cs => (if pat.isPrefixOf (c :: cs) then 1 else 0) + countOccs pat cs

/-- The clip marker token `g-clip`. -/
def gClipMarker : List Char := ['g', '-', 'c', 'l', 'i', 'p']

/-- Whether the list contains a case-insensitive `</p>` close tag anywhere;
inner markup satisfying this is captured whole by the lazy group. -/
def noCloseB : List Char → Bool
  | [] => true
  | c :: cs => !startsCloseP (c :: cs) && noCloseB cs

/-- Well-formedness of one (glue, attributes, inner) block: the glue contains
no `<` (so the scan cannot start a match inside it), the attributes contain
no `>` (so the greedy `[^>]*` captures them whole), and the inner markup
contains no close tag (so the lazy group captures it whole). -/
def GoodBlock (b : List Char × List Char × List Char) : Prop :=
  (∀ c ∈ b.1, c ≠ '<') ∧ (∀ c ∈ b.2.1, c ≠ '>') ∧ noCloseB b.2.2 = true

/-- Well-formedness of a block list. -/
def GoodBlocks (bs : List (List Char × List Char × List Char)) : Prop :=
  ∀ b ∈ bs, GoodBlock b

/-- An attribute string carrying exactly one double-quoted class attribute,
` class="<tokens>"`. -/
def classAttr (cl : List Char) : List Char :=
  ' ' :: 'c' :: 'l' :: 'a' :: 's' :: 's' :: '=' :: '"' :: (cl ++ ['"'])

/-- An attribute string carrying exactly one single-quoted class attribute,
` class='<tokens>'`. -/
def classAttrSingle (cl : List Char) : List Char :=
  ' ' :: 'c' :: 'l' :: 'a' :: 's' :: 's' :: '=' :: '\'' :: (cl ++ ['\''])

/-! ### Anatomy of the paragraph matcher -/

/-- A list not starting with `<` starts no paragraph match. -/
lemma matchP_cons_ne {c : Char} (cs : List Char) (h : c ≠ '<') :
    matchP (c :: cs) = none := by
  cases cs with
  | nil => rfl
  | cons p rest => simp [matchP, h]

/-- Greedy attribute capture on a block of the form `attrs ++ '>' ++ rest`. -/
lemma takeAttrs_append {a : List Char} (x : List Char) (ha : ∀ c ∈ a, c ≠ '>') :
    takeAttrs (a ++ '>' :: x) = some (a, x) := by
  induction a with
  | nil => simp [takeAttrs]
  | cons c a ih =>
    have hc : c ≠ '>' := ha c (by simp)
    have ih' := ih (fun d hd => ha d (by simp [hd]))
    simp [takeAttrs, hc, ih']

/-- Inversion for a successful attribute capture. -/
lemma takeAttrs_decomp : ∀ {l a r : List Char}, takeAttrs l = some (a, r) →
    l = a ++ '>' :: r ∧ ∀ c ∈ a, c ≠ '>' := by
  intro l
  induction l with
  | nil => intro a r h; simp [takeAttrs] at h
  | cons c cs ih =>
    intro a r h
    simp only [takeAttrs] at h
    by_cases hc : c = '>'
    · subst hc
      simp at h
      obtain ⟨ha, hr⟩ := h
      subst ha; subst hr
      simp
    · simp [hc] at h
      rcases hres : takeAttrs cs with _ | ⟨a', r'⟩
      · rw [hres] at h; simp at h
      · rw [hres] at h
        simp at h
        obtain ⟨ha, hr⟩ := h
        obtain ⟨hcs, hmem⟩ := ih hres
        subst hr
        constructor
        · rw [← ha]; simp [hcs]
        · intro d hd
          rw [← ha] at hd
          rcases List.mem_cons.mp hd with h1 | h1
          · rw [h1]; exact hc
          · exact hmem d h1

/-- Inversion for the close-tag test. -/
lemma startsCloseP_elim : ∀ {l : List Char}, startsCloseP l = true →
    ∃ q t, pTagChar q = true ∧ l = '<' :: '/' :: q :: '>' :: t := by
  intro l h
  rcases l with _ | ⟨c1, _ | ⟨c2, _ | ⟨c3, _ | ⟨c4, t⟩⟩⟩⟩ <;> simp [startsCloseP] at h
  obtain ⟨⟨⟨h1, h2⟩, h3⟩, h4⟩ := h
  exact ⟨c3, t, h3, by rw [h1, h2, h4]⟩

/-- Appending text that starts with `<` to a nonempty list does not change
whether the list starts a close tag (the appended `<` can complete none of
the first three pattern positions, which require `/`, a `p`, `>`). -/
lemma startsCloseP_append_cons_lt (c : Char) (x y : List Char) :
    startsCloseP ((c :: x) ++ '<' :: y) = startsCloseP (c :: x) := by
  rcases x with _ | ⟨c2, _ | ⟨c3, _ | ⟨c4, x'⟩⟩⟩
  · rcases y with _ | ⟨y1, _ | ⟨y2, t⟩⟩ <;> simp [startsCloseP, pTagChar]
  · rcases y with _ | ⟨y1, t⟩ <;> simp [startsCloseP, pTagChar]
  · simp [startsCloseP, pTagChar]
  · simp [startsCloseP]

/-- The lazy close-tag search on `inner ++ close-tag ++ rest` finds exactly
the appended close tag when the inner markup contains none. -/
lemma findCloseP_close {q : Char} (hq : pTagChar q = true) :
    ∀ {i : List Char} (r : List Char), noCloseB i = true →
      findCloseP (i ++ '<' :: '/' :: q :: '>' :: r) = some (i, r) := by
  intro i
  induction i with
  | nil =>
    intro r _
    simp [findCloseP, startsCloseP, hq]
  | cons c i ih =>
    intro r hi
    simp only [noCloseB, Bool.and_eq_true, Bool.not_eq_true'] at hi
    obtain ⟨hhead, htail⟩ := hi
    have hne : startsCloseP (c :: (i ++ '<' :: '/' :: q :: '>' :: r)) = false := by
      rw [← List.cons_append, startsCloseP_append_cons_lt]; exact hhead
    simp only [List.cons_append, findCloseP, List.append_eq, hne, Bool.false_eq_true,
      if_false]
    rw [ih r htail]

/-- The paragraph matcher on a well-formed lowercase block followed by
arbitrary rest: it matches exactly the block, capturing its attributes and
inner markup. -/
lemma matchP_mkBlock {a i : List Char} (ha : ∀ c ∈ a, c ≠ '>')
    (hi : noCloseB i = true) (r : List Char) :
    matchP (mkBlock a i ++ r) = some (a, i, r) := by
  have hshape : mkBlock a i ++ r
      = '<' :: 'p' :: (a ++ '>' :: (i ++ '<' :: '/' :: 'p' :: '>' :: r)) := by
    simp [mkBlock]
  rw [hshape]
  simp only [matchP, pTagChar]
  rw [if_pos (by simp)]
  rw [takeAttrs_append _ ha]
  simp only [findCloseP_close (q := 'p') (by simp [pTagChar]) r hi]

/-! ### The global replace on well-formed block lists -/

/-- Text without `<` contains no match; the replace copies it verbatim. -/
lemma replace_no_lt (f : Nat → List Char → List Char → List Char) :
    ∀ (t : List Char), (∀ c ∈ t, c ≠ '<') → ∀ fuel k,
      replaceParagraphsAux f fuel k t = t := by
  intro t
  induction t with
  | nil => intro _ fuel k; cases fuel <;> rfl
  | cons c cs ih =>
    intro h fuel k
    cases fuel with
    | zero => rfl
    | succ fu =>
      have hc : c ≠ '<' := h c (by simp)
      simp only [replaceParagraphsAux, matchP_cons_ne cs hc]
      rw [ih (fun d hd => h d (by simp [hd])) fu k]

/-- The replace copies glue text without `<` verbatim and continues. -/
lemma replace_skip (f : Nat → List Char → List Char → List Char) :
    ∀ (g : List Char), (∀ c ∈ g, c ≠ '<') → ∀ (l : List Char) fuel k,
      g.length + l.length ≤ fuel →
      replaceParagraphsAux f fuel k (g ++ l)
        = g ++ replaceParagraphsAux f (fuel - g.length) k l := by
  intro g
  induction g with
  | nil => intro _ l fuel k _; simp
  | cons c g ih =>
    intro h l fuel k hfuel
    cases fuel with
    | zero => simp at hfuel
    | succ fu =>
      have hc : c ≠ '<' := h c (by simp)
      have hrec := ih (fun d hd => h d (by simp [hd])) l fu k
        (by simp only [List.length_cons] at hfuel; omega)
      have hsub : fu + 1 - (g.length + 1) = fu - g.length := by omega
      simp only [List.cons_append, replaceParagraphsAux, List.append_eq,
        matchP_cons_ne (g ++ l) hc, hrec, List.length_cons, hsub]

/-- The replace consumes one well-formed block as a single match, emits the
callback at the current counter, increments the counter and continues. -/
lemma replace_block (f : Nat → List Char → List Char → List Char)
    {a i : List Char} (ha : ∀ c ∈ a, c ≠ '>') (hi : noCloseB i = true)
    (r : List Char) (fuel k : Nat) (hfuel : 1 ≤ fuel) :
    replaceParagraphsAux f fuel k (mkBlock a i ++ r)
      = f k a i ++ replaceParagraphsAux f (fuel - 1) (k + 1) r := by
  cases fuel with
  | zero => omega
  | succ fu =>
    have hm := matchP_mkBlock ha hi r
    have hshape : mkBlock a i ++ r
        = '<' :: (('p' :: a ++ '>' :: i ++ ['<', '/', 'p', '>']) ++ r) := by
      simp [mkBlock]
    rw [hshape] at hm ⊢
    simp only [replaceParagraphsAux, hm, Nat.add_sub_cancel]

/-- The global replace on content made of well-formed blocks: glue and
trailing text pass through byte-for-byte, and each block is replaced by the
callback at its 0-based document-order position offset by the initial
counter value. -/
lemma replace_mkContent (f : Nat → List Char → List Char → List Char) :
    ∀ (bs : List (List Char × List Char × List Char)) (t : List Char) (k fuel : Nat),
      GoodBlocks bs → (∀ c ∈ t, c ≠ '<') → (mkContent bs t).length ≤ fuel →
      replaceParagraphsAux f fuel k (mkContent bs t) = mkRendered f k bs t := by
  intro bs
  induction bs with
  | nil => intro t k fuel _ ht _; exact replace_no_lt f t ht fuel k
  | cons b bs ih =>
    rcases b with ⟨g, a, i⟩
    intro t k fuel hgood ht hfuel
    obtain ⟨hg, ha, hi⟩ := hgood (g, a, i) (by simp)
    have hgood' : GoodBlocks bs := fun b hb => hgood b (by simp [hb])
    have hmb : (mkBlock a i).length = a.length + i.length + 7 := by
      simp [mkBlock]
      omega
    simp only [mkContent] at hfuel ⊢
    have hlen2 : g.length + ((a.length + i.length + 7) + (mkContent bs t).length)
        ≤ fuel := by
      simp only [List.length_append, hmb] at hfuel
      omega
    rw [replace_skip f g hg _ fuel k (by simp only [List.length_append, hmb]; omega)]
    rw [replace_block f ha hi _ _ _ (by omega)]
    rw [ih t (k + 1) (fuel - g.length - 1) hgood' ht (by omega)]
    simp [mkRendered]

/-- The wrapper variant on well-formed block content, flag on. -/
lemma wrapper_transform_mkContent {s : ViewSettings} (hs : s.gradientEnabled = some true)
    {bs : List (List Char × List Char × List Char)} {t : List Char}
    (hbs : GoodBlocks bs) (ht : ∀ c ∈ t, c ≠ '<') :
    gradientTransformWrapper ⟨mkContent bs t, s⟩ = mkRendered wrapperCallback 0 bs t := by
  simp only [gradientTransformWrapper, hs, Option.getD_some, if_true]
  exact replace_mkContent wrapperCallback bs t 0 _ hbs ht le_rfl

/-- The classes-only variant on well-formed block content, flag on. -/
lemma classesOnly_transform_mkContent {s : ViewSettings}
    (hs : s.gradientEnabled = some true)
    {bs : List (List Char × List Char × List Char)} {t : List Char}
    (hbs : GoodBlocks bs) (ht : ∀ c ∈ t, c ≠ '<') :
    gradientTransformClassesOnly ⟨mkContent bs t, s⟩
      = mkRendered classesOnlyCallback 0 bs t := by
  simp only [gradientTransformClassesOnly, hs, Option.getD_some, if_true]
  exact replace_mkContent classesOnlyCallback bs t 0 _ hbs ht le_rfl

/-- A wrapper-variant pass renders a block list to the block list transformed
by `wrapBlocks` (each output block is again a lowercase paragraph block). -/
lemma mkRendered_wrapperCallback : ∀ (k : Nat) bs (t : List Char),
    mkRendered wrapperCallback k bs t = mkContent (wrapBlocks k bs) t := by
  intro k bs
  induction bs generalizing k with
  | nil => intro t; rfl
  | cons b bs ih =>
    intro t
    rcases b with ⟨g, a, i⟩
    simp only [mkRendered, wrapBlocks, mkContent, wrapStep]
    rw [ih]
    simp [wrapperCallback, mkBlock]

/-! ### The class-attribute regex -/

/-- Splitting at the first quote of `x ++ '"' :: y` when `x` is quote-free. -/
lemma splitAtQuote_append {x : List Char} (y : List Char) (hx : ∀ c ∈ x, c ≠ '"') :
    splitAtQuote (x ++ '"' :: y) = some (x, y) := by
  induction x with
  | nil => simp [splitAtQuote]
  | cons c x ih =>
    have hc : c ≠ '"' := hx c (by simp)
    have ih' := ih (fun d hd => hx d (by simp [hd]))
    simp [splitAtQuote, hc, ih']

/-- Inversion for a successful quote split. -/
lemma splitAtQuote_decomp : ∀ {l x y : List Char}, splitAtQuote l = some (x, y) →
    l = x ++ '"' :: y ∧ ∀ c ∈ x, c ≠ '"' := by
  intro l
  induction l with
  | nil => intro x y h; simp [splitAtQuote] at h
  | cons c cs ih =>
    intro x y h
    simp only [splitAtQuote] at h
    by_cases hc : c = '"'
    · subst hc
      simp at h
      obtain ⟨hx, hy⟩ := h
      subst hx; subst hy
      simp
    · simp [hc] at h
      rcases hres : splitAtQuote cs with _ | ⟨x', y'⟩
      · rw [hres] at h; simp at h
      · rw [hres] at h
        simp at h
        obtain ⟨hx, hy⟩ := h
        obtain ⟨hcs, hmem⟩ := ih hres
        subst hy
        constructor
        · rw [← hx]; simp [hcs]
        · intro d hd
          rw [← hx] at hd
          rcases List.mem_cons.mp hd with h1 | h1
          · rw [h1]; exact hc
          · exact hmem d h1

/-- Inversion for the case-insensitive `class="` prefix test. -/
lemma startsClassEq_elim : ∀ {l : List Char}, startsClassEq l = true →
    ∃ c1 c2 c3 c4 c5 rest, l = c1 :: c2 :: c3 :: c4 :: c5 :: '=' :: '"' :: rest := by
  intro l h
  rcases l with _ | ⟨c1, _ | ⟨c2, _ | ⟨c3, _ | ⟨c4, _ | ⟨c5, _ | ⟨c6, _ | ⟨c7, rest⟩⟩⟩⟩⟩⟩⟩ <;>
    simp [startsClassEq] at h
  obtain ⟨⟨⟨⟨⟨⟨h1, h2⟩, h3⟩, h4⟩, h5⟩, h6⟩, h7⟩ := h
  exact ⟨c1, c2, c3, c4, c5, rest, by rw [h6, h7]⟩

/-- A matching `class="` prefix contains a double quote. -/
lemma startsClassEq_quote {l : List Char} (h : startsClassEq l = true) : '"' ∈ l := by
  obtain ⟨c1, c2, c3, c4, c5, rest, hl⟩ := startsClassEq_elim h
  rw [hl]; simp

/-- A quote-free attribute string has no detectable class attribute: the
pattern `class="([^"]*)"` requires a double quote. -/
lemma findClassAttr_none_of_no_quote : ∀ {a : List Char}, (∀ c ∈ a, c ≠ '"') →
    findClassAttr a = none := by
  intro a
  induction a with
  | nil => intro _; rfl
  | cons c cs ih =>
    intro h
    have hs : startsClassEq (c :: cs) = false := by
      rcases hq : startsClassEq (c :: cs) with _ | _
      · rfl
      · exact absurd rfl (h _ (startsClassEq_quote hq))
    simp only [findClassAttr, hs, Bool.false_eq_true, if_false]
    rw [ih (fun d hd => h d (by simp [hd]))]

/-- Inversion for a successful class-attribute match: the attribute string
decomposes into the text before the match, the (case-insensitively) matched
`class="`, the quote-free captured classes, the closing quote and the rest. -/
lemma findClassAttr_decomp : ∀ {a p cls r : List Char},
    findClassAttr a = some (p, cls, r) →
    ∃ c1 c2 c3 c4 c5, a = p ++ c1 :: c2 :: c3 :: c4 :: c5 :: '=' :: '"' :: (cls ++ '"' :: r)
      ∧ ∀ c ∈ cls, c ≠ '"' := by
  intro a
  induction a with
  | nil => intro p cls r h; simp [findClassAttr] at h
  | cons c cs ih =>
    intro p cls r h
    simp only [findClassAttr] at h
    by_cases hs : startsClassEq (c :: cs) = true
    · rw [if_pos hs] at h
      obtain ⟨c1, c2, c3, c4, c5, rest, hl⟩ := startsClassEq_elim hs
      have hc : c = c1 := by injection hl
      have hcs : cs = c2 :: c3 :: c4 :: c5 :: '=' :: '"' :: rest := by injection hl
      have hdrop : cs.drop 6 = rest := by rw [hcs]; rfl
      rw [hdrop] at h
      rcases hq : splitAtQuote rest with _ | ⟨cls', r'⟩
      · rw [hq] at h; simp at h
      · rw [hq] at h
        simp at h
        obtain ⟨hp, hcls, hr⟩ := h
        obtain ⟨hrest, hquot⟩ := splitAtQuote_decomp hq
        subst hp; subst hcls; subst hr
        refine ⟨c1, c2, c3, c4, c5, ?_, hquot⟩
        rw [hc, hcs, hrest]
        simp
    · rw [if_neg hs] at h
      rcases hrec : findClassAttr cs with _ | ⟨⟨p', cls', r'⟩⟩
      · rw [hrec] at h; simp at h
      · rw [hrec] at h
        simp at h
        obtain ⟨hp, hcls, hr⟩ := h
        obtain ⟨c1, c2, c3, c4, c5, hcs, hquot⟩ := ih hrec
        subst hp; subst hcls; subst hr
        refine ⟨c1, c2, c3, c4, c5, ?_, hquot⟩
        rw [hcs]
        simp

/-- Locating the class attribute of ` class="<cl>" ++ r`-shaped attributes. -/
lemma findClassAttr_classAttr {cl : List Char} (r : List Char)
    (hcl : ∀ c ∈ cl, c ≠ '"') :
    findClassAttr
        (' ' :: 'c' :: 'l' :: 'a' :: 's' :: 's' :: '=' :: '"' :: (cl ++ '"' :: r))
      = some ([' '], cl, r) := by
  have h1 : startsClassEq
      (' ' :: 'c' :: 'l' :: 'a' :: 's' :: 's' :: '=' :: '"' :: (cl ++ '"' :: r)) = false := by
    simp [startsClassEq]
  have h2 : startsClassEq
      ('c' :: 'l' :: 'a' :: 's' :: 's' :: '=' :: '"' :: (cl ++ '"' :: r)) = true := by
    simp [startsClassEq]
  simp only [findClassAttr, h1, h2, Bool.false_eq_true, if_false, if_true]
  rw [show ('l' :: 'a' :: 's' :: 's' :: '=' :: '"' :: (cl ++ '"' :: r)).drop 6
      = cl ++ '"' :: r from rfl]
  rw [splitAtQuote_append r hcl]

/-! ### The clip guard and the wrapper span -/

/-- A list not starting with `<` starts no close tag. -/
lemma startsCloseP_cons_ne {c : Char} (cs : List Char) (h : c ≠ '<') :
    startsCloseP (c :: cs) = false := by
  rcases cs with _ | ⟨c2, _ | ⟨c3, _ | ⟨c4, t⟩⟩⟩ <;> simp [startsCloseP, h]

/-- Peeling one close-tag-free character off `noCloseB`. -/
lemma noCloseB_cons_eq {c : Char} {cs : List Char}
    (h : startsCloseP (c :: cs) = false) : noCloseB (c :: cs) = noCloseB cs := by
  simp [noCloseB, h]

/-- A `<`-free prefix contributes no close tag. -/
lemma noCloseB_append_no_lt (x : List Char) (hx : ∀ c ∈ x, c ≠ '<') (y : List Char) :
    noCloseB (x ++ y) = noCloseB y := by
  induction x with
  | nil => simp
  | cons c x ih =>
    have hc : c ≠ '<' := hx c (by simp)
    rw [List.cons_append, noCloseB_cons_eq (startsCloseP_cons_ne _ hc)]
    exact ih (fun d hd => hx d (by simp [hd]))

/-- Close-tag-freeness is preserved by appending a close-tag-free list that
starts with `<` (windows crossing the junction would need that `<` to be
followed by `/`, a `p`, `>`, which the pattern positions rule out). -/
lemma noCloseB_append_cons_lt {x y : List Char} (hx : noCloseB x = true)
    (hy : noCloseB ('<' :: y) = true) : noCloseB (x ++ '<' :: y) = true := by
  induction x with
  | nil => simpa using hy
  | cons c x ih =>
    simp only [noCloseB, Bool.and_eq_true, Bool.not_eq_true'] at hx
    obtain ⟨hhead, htail⟩ := hx
    have hs : startsCloseP (c :: (x ++ '<' :: y)) = false := by
      rw [← List.cons_append, startsCloseP_append_cons_lt]; exact hhead
    rw [List.cons_append, noCloseB_cons_eq hs]
    exact ih htail

/-- The shade digit is one of `0`, `1`, `2`, `3`. -/
lemma digitChar_mod4 (k : Nat) : Nat.digitChar (k % 4) = '0' ∨
    Nat.digitChar (k % 4) = '1' ∨ Nat.digitChar (k % 4) = '2' ∨
    Nat.digitChar (k % 4) = '3' := by
  have h4 : k % 4 = 0 ∨ k % 4 = 1 ∨ k % 4 = 2 ∨ k % 4 = 3 := by omega
  rcases h4 with h | h | h | h <;> rw [h] <;> decide

/-- The shade digit is not `<`. -/
lemma digitChar_mod4_ne_lt (k : Nat) : Nat.digitChar (k % 4) ≠ '<' := by
  rcases digitChar_mod4 k with h | h | h | h <;> rw [h] <;> decide

/-- The shade digit is not a quote. -/
lemma digitChar_mod4_not_quote (k : Nat) : isQuoteChar (Nat.digitChar (k % 4)) = false := by
  rcases digitChar_mod4 k with h | h | h | h <;> rw [h] <;> decide

/-- The wrapper span written as an explicit character chain. -/
lemma clipSpan_chain (k : Nat) (i : List Char) :
    clipSpan k i = '<' :: 's' :: 'p' :: 'a' :: 'n' :: ' ' :: 'c' :: 'l' :: 'a' :: 's' ::
      's' :: '=' :: '"' :: 'g' :: '-' :: 'c' :: 'l' :: 'i' :: 'p' :: ' ' :: 'g' :: '-' ::
      'l' :: Nat.digitChar (k % 4) :: '"' :: '>' ::
      (i ++ ['<', '/', 's', 'p', 'a', 'n', '>']) := by
  simp [clipSpan, shadeClass]

/-- The wrapper span contains no paragraph close tag when the wrapped inner
markup contains none. -/
lemma noCloseB_clipSpan (k : Nat) {i : List Char} (hi : noCloseB i = true) :
    noCloseB (clipSpan k i) = true := by
  have hC : noCloseB ('<' :: ['/', 's', 'p', 'a', 'n', '>']) = true := by decide
  have ht : noCloseB (i ++ '<' :: ['/', 's', 'p', 'a', 'n', '>']) = true :=
    noCloseB_append_cons_lt hi hC
  have hqt : noCloseB ('"' :: '>' :: (i ++ '<' :: ['/', 's', 'p', 'a', 'n', '>'])) = true := by
    rw [noCloseB_cons_eq (startsCloseP_cons_ne (c := '"') _ (by decide)),
      noCloseB_cons_eq (startsCloseP_cons_ne (c := '>') _ (by decide))]
    exact ht
  have hform : clipSpan k i
      = '<' :: ((['s', 'p', 'a', 'n', ' ', 'c', 'l', 'a', 's', 's', '=', '"',
          'g', '-', 'c', 'l', 'i', 'p', ' ', 'g', '-', 'l'] ++ [Nat.digitChar (k % 4)])
          ++ ('"' :: '>' :: (i ++ '<' :: ['/', 's', 'p', 'a', 'n', '>']))) := by
    simp [clipSpan, shadeClass]
  have hmem : ∀ c ∈ (['s', 'p', 'a', 'n', ' ', 'c', 'l', 'a', 's', 's', '=', '"',
      'g', '-', 'c', 'l', 'i', 'p', ' ', 'g', '-', 'l'] ++ [Nat.digitChar (k % 4)]),
      c ≠ '<' := by
    intro c hc
    rcases List.mem_append.mp hc with h | h
    · exact (by decide : ∀ c ∈ ['s', 'p', 'a', 'n', ' ', 'c', 'l', 'a', 's', 's', '=', '"',
        'g', '-', 'c', 'l', 'i', 'p', ' ', 'g', '-', 'l'], c ≠ '<') c h
    · rw [List.mem_singleton] at h; subst h; exact digitChar_mod4_ne_lt k
  have hstart : startsCloseP ('<' :: ((['s', 'p', 'a', 'n', ' ', 'c', 'l', 'a', 's', 's',
      '=', '"', 'g', '-', 'c', 'l', 'i', 'p', ' ', 'g', '-', 'l']
        ++ [Nat.digitChar (k % 4)])
      ++ ('"' :: '>' :: (i ++ '<' :: ['/', 's', 'p', 'a', 'n', '>'])))) = false := by
    simp [startsCloseP]
  rw [hform, noCloseB_cons_eq hstart, noCloseB_append_no_lt _ hmem]
  exact hqt

/-- The clip-guard pattern matches at the head of a wrapper span, for any
non-quote shade digit. -/
lemma clipAt_chain {d : Char} (hq : isQuoteChar d = false) (t : List Char) :
    clipAt ('<' :: 's' :: 'p' :: 'a' :: 'n' :: ' ' :: 'c' :: 'l' :: 'a' :: 's' :: 's' ::
      '=' :: '"' :: 'g' :: '-' :: 'c' :: 'l' :: 'i' :: 'p' :: ' ' :: 'g' :: '-' :: 'l' ::
      d :: '"' :: '>' :: t) = true := by
  simp [clipAt, clipTail, runHasGClip, startsGClip, nilOrNonWord,
    List.takeWhile_cons, List.dropWhile_cons, hq,
    (by decide : jsSpace ' ' = true), (by decide : jsSpace 'c' = false),
    (by decide : isWordChar '"' = false), (by decide : isWordChar ' ' = false),
    (by decide : isQuoteChar '"' = true), (by decide : isQuoteChar 'g' = false),
    (by decide : isQuoteChar '-' = false), (by decide : isQuoteChar 'c' = false),
    (by decide : isQuoteChar 'l' = false), (by decide : isQuoteChar 'i' = false),
    (by decide : isQuoteChar 'p' = false), (by decide : isQuoteChar ' ' = false)]

/-- A list whose head position matches the clip guard passes the `hasClip`
test. -/
lemma hasClip_cons_of_clipAt {c : Char} {cs : List Char}
    (h : clipAt (c :: cs) = true) : hasClip (c :: cs) = true := by
  simp [hasClip, h]

/-- The anti-double-wrap guard fires on any wrapper span the transformer
itself produced: re-scanning its own output detects the clip marker. -/
lemma hasClip_clipSpan (k : Nat) (i : List Char) : hasClip (clipSpan k i) = true := by
  rw [clipSpan_chain]
  exact hasClip_cons_of_clipAt (clipAt_chain (digitChar_mod4_not_quote k) _)

/-- Attribute rewriting of the wrapper variant introduces no `>`. -/
lemma wrapperAttrs_no_gt {a : List Char} (ha : ∀ c ∈ a, c ≠ '>') :
    ∀ c ∈ wrapperAttrs a, c ≠ '>' := by
  unfold wrapperAttrs
  rcases hf : findClassAttr a with _ | ⟨⟨p, cls, r⟩⟩
  · simp only [hf, Option.isSome_none, Bool.false_eq_true, if_false]
    intro c hc
    have hcases : c ∈ a ∨
        c ∈ (' ' :: (['c', 'l', 'a', 's', 's', '=', '"'] ++ (lineClass ++ ['"']))) := by
      simp only [List.mem_append, List.mem_cons] at hc ⊢
      tauto
    rcases hcases with h | h
    · exact ha c h
    · exact (by decide : ∀ c ∈ ' ' :: (['c', 'l', 'a', 's', 's', '=', '"']
        ++ (lineClass ++ ['"'])), c ≠ '>') c h
  · simp only [hf, Option.isSome_some, if_true, replaceClassAttr]
    obtain ⟨c1, c2, c3, c4, c5, hdecomp, -⟩ := findClassAttr_decomp hf
    have hsub : ∀ c, c ∈ p ∨ c ∈ cls ∨ c ∈ r → c ≠ '>' := by
      intro c hc
      apply ha
      rw [hdecomp]
      rcases hc with h | h | h
      · exact List.mem_append.mpr (Or.inl h)
      · refine List.mem_append.mpr (Or.inr ?_); simp [h]
      · refine List.mem_append.mpr (Or.inr ?_); simp [h]
    intro c hc
    have hcases : c ∈ p ∨ c ∈ cls ∨ c ∈ r ∨
        c ∈ ('c' :: 'l' :: 'a' :: 's' :: 's' :: '=' :: '"' :: ' ' :: (lineClass ++ ['"'])) := by
      simp only [List.mem_append, List.mem_cons] at hc ⊢
      tauto
    rcases hcases with h | h | h | h
    · exact hsub c (Or.inl h)
    · exact hsub c (Or.inr (Or.inl h))
    · exact hsub c (Or.inr (Or.inr h))
    · exact (by decide : ∀ c ∈ ('c' :: 'l' :: 'a' :: 's' :: 's' :: '=' :: '"' :: ' ' ::
        (lineClass ++ ['"'])), c ≠ '>') c h

/-! ### Callback computations on concrete attribute shapes -/

/-- Membership in a double-quoted class attribute: no `>` beyond those of the
token list. -/
lemma classAttr_no_gt {cl : List Char} (hg : ∀ c ∈ cl, c ≠ '>') :
    ∀ c ∈ classAttr cl, c ≠ '>' := by
  intro c hc
  simp only [classAttr, List.mem_cons, List.mem_append, List.mem_singleton] at hc
  rcases hc with rfl | rfl | rfl | rfl | rfl | rfl | rfl | rfl | h | rfl | h
  all_goals first
  | decide
  | exact hg c h
  | simp at h

/-- Membership in a single-quoted class attribute: no `>` beyond those of the
token list. -/
lemma classAttrSingle_no_gt {cl : List Char} (hg : ∀ c ∈ cl, c ≠ '>') :
    ∀ c ∈ classAttrSingle cl, c ≠ '>' := by
  intro c hc
  simp only [classAttrSingle, List.mem_cons, List.mem_append, List.mem_singleton] at hc
  rcases hc with rfl | rfl | rfl | rfl | rfl | rfl | rfl | rfl | h | rfl | h
  all_goals first
  | decide
  | exact hg c h
  | simp at h

/-- A single-quoted class attribute over quote-free tokens contains no double
quote, hence the class-detection pattern cannot match it. -/
lemma classAttrSingle_no_quote {cl : List Char} (hq : ∀ c ∈ cl, c ≠ '"') :
    ∀ c ∈ classAttrSingle cl, c ≠ '"' := by
  intro c hc
  simp only [classAttrSingle, List.mem_cons, List.mem_append, List.mem_singleton] at hc
  rcases hc with rfl | rfl | rfl | rfl | rfl | rfl | rfl | rfl | h | rfl | h
  all_goals first
  | decide
  | exact hq c h
  | simp at h

/-- The classes-only replacement on a block with an existing double-quoted
class attribute: existing tokens kept verbatim and in order, both new tokens
appended after them. -/
lemma classesOnlyCallback_classAttr {cl : List Char} (k : Nat) (i : List Char)
    (hq : ∀ c ∈ cl, c ≠ '"') :
    classesOnlyCallback k (classAttr cl) i
      = mkBlock (classAttr (cl ++ ' ' :: gradientClass k)) i := by
  have hf : findClassAttr (classAttr cl) = some ([' '], cl, []) :=
    findClassAttr_classAttr [] hq
  simp only [classesOnlyCallback, classesOnlyAttrs, hf, Option.isSome_some, if_true,
    replaceClassAttr]
  simp [mkBlock, classAttr]

/-- The classes-only replacement on a block with no class attribute: a class
attribute containing exactly the two new tokens is synthesized. -/
lemma classesOnlyCallback_noClass (k : Nat) (i : List Char) :
    classesOnlyCallback k [] i = mkBlock (classAttr (gradientClass k)) i := by
  simp [classesOnlyCallback, classesOnlyAttrs, findClassAttr, mkBlock, classAttr]

/-- The wrapper replacement on a block with an existing double-quoted class
attribute: only the line marker is appended to the class attribute; the shade
token goes on the wrapper span. -/
lemma wrapperCallback_classAttr {cl : List Char} (k : Nat) (i : List Char)
    (hq : ∀ c ∈ cl, c ≠ '"') :
    wrapperCallback k (classAttr cl) i
      = mkBlock (classAttr (cl ++ ' ' :: lineClass))
          (if hasClip i then i else clipSpan k i) := by
  have hf : findClassAttr (classAttr cl) = some ([' '], cl, []) :=
    findClassAttr_classAttr [] hq
  simp only [wrapperCallback, wrapperAttrs, hf, Option.isSome_some, if_true,
    replaceClassAttr]
  simp [mkBlock, classAttr]

/-- The wrapper replacement on a block with no class attribute. -/
lemma wrapperCallback_noClass (k : Nat) (i : List Char) :
    wrapperCallback k [] i
      = mkBlock (classAttr lineClass) (if hasClip i then i else clipSpan k i) := by
  simp [wrapperCallback, wrapperAttrs, findClassAttr, mkBlock, classAttr]

/-- The classes-only replacement on a block whose class attribute is written
with single quotes: the existing attribute is not detected, stays in place,
and a second, double-quoted class attribute with exactly the new tokens is
appended after it. -/
lemma classesOnlyCallback_singleQuote {cl : List Char} (k : Nat) (i : List Char)
    (hq : ∀ c ∈ cl, c ≠ '"') :
    classesOnlyCallback k (classAttrSingle cl) i
      = mkBlock (classAttrSingle cl ++ classAttr (gradientClass k)) i := by
  have hf : findClassAttr (classAttrSingle cl) = none :=
    findClassAttr_none_of_no_quote (classAttrSingle_no_quote hq)
  simp only [classesOnlyCallback, classesOnlyAttrs, hf, Option.isSome_none,
    Bool.false_eq_true, if_false]
  simp [mkBlock, classAttr]

/-- The wrapper replacement on a block whose class attribute is written with
single quotes. -/
lemma wrapperCallback_singleQuote {cl : List Char} (k : Nat) (i : List Char)
    (hq : ∀ c ∈ cl, c ≠ '"') :
    wrapperCallback k (classAttrSingle cl) i
      = mkBlock (classAttrSingle cl ++ classAttr lineClass)
          (if hasClip i then i else clipSpan k i) := by
  have hf : findClassAttr (classAttrSingle cl) = none :=
    findClassAttr_none_of_no_quote (classAttrSingle_no_quote hq)
  simp only [wrapperCallback, wrapperAttrs, hf, Option.isSome_none,
    Bool.false_eq_true, if_false]
  simp [mkBlock, classAttr]

/-- CLAIM C1: with the flag on, the classes-only variant transforms
`<p>Hello</p><p>World</p>` to exactly
`<p class="g-line g-l0">Hello</p><p class="g-line g-l1">World</p>`. -/
theorem gradient_e2e_classes_only :
    gradientTransformClassesOnly
        ⟨"<p>Hello</p><p>World</p>".toList, ⟨some true, []⟩⟩
      = "<p class=\"g-line g-l0\">Hello</p><p class=\"g-line g-l1\">World</p>".toList := by
  decide

/-- CLAIM C4: with the flag `false` or absent (absent is treated as `false`),
both variants of the gradient transformer return the content exactly
unchanged. -/
theorem gradient_disabled_identity (ctx : TransformCtx)
    (h : ctx.viewSettings.gradientEnabled = none ∨
      ctx.viewSettings.gradientEnabled = some false) :
    gradientTransformWrapper ctx = ctx.content ∧
      gradientTransformClassesOnly ctx = ctx.content := by
  rcases h with h | h <;>
    simp [gradientTransformWrapper, gradientTransformClassesOnly, h, Option.getD]

/-- Witness for C4: a concrete context with the flag absent, containing a
paragraph, passes through unchanged. -/
theorem gradient_disabled_identity_witness :
    (⟨"<p>x</p>".toList, ⟨none, []⟩⟩ : TransformCtx).viewSettings.gradientEnabled = none ∧
      gradientTransformWrapper ⟨"<p>x</p>".toList, ⟨none, []⟩⟩ = "<p>x</p>".toList :=
  ⟨rfl, (gradient_disabled_identity ⟨"<p>x</p>".toList, ⟨none, []⟩⟩ (Or.inl rfl)).1⟩

/-- CLAIM C6: the gradient transformer is deterministic and stateless: the
output depends only on the content and the gradient flag (identical content
and flag, possibly different unrelated settings, give byte-identical output),
and in particular two calls on the same context yield identical output; the
`paragraphIndex` counter is the local initial value 0 of
`replaceParagraphsAux`, never stored between calls. -/
theorem gradient_deterministic_stateless (ctx1 ctx2 : TransformCtx)
    (hc : ctx1.content = ctx2.content)
    (hg : ctx1.viewSettings.gradientEnabled = ctx2.viewSettings.gradientEnabled) :
    gradientTransformWrapper ctx1 = gradientTransformWrapper ctx2 ∧
      gradientTransformClassesOnly ctx1 = gradientTransformClassesOnly ctx2 ∧
      (ctx1.viewSettings.gradientEnabled = some true →
        gradientTransformWrapper ctx1
          = replaceParagraphsAux wrapperCallback ctx1.content.length 0 ctx1.content) := by
  refine ⟨?_, ?_, ?_⟩
  · simp only [gradientTransformWrapper, hc, hg]
  · simp only [gradientTransformClassesOnly, hc, hg]
  · intro h
    simp only [gradientTransformWrapper, h, Option.getD_some, if_true]

/-- Witness for C6: two contexts with the same content and flag but different
unrelated settings produce identical output. -/
theorem gradient_deterministic_stateless_witness :
    (⟨"<p>x</p>".toList, ⟨some true, []⟩⟩ : TransformCtx).content
        = (⟨"<p>x</p>".toList, ⟨some true, [("theme", true)]⟩⟩ : TransformCtx).content ∧
      gradientTransformWrapper ⟨"<p>x</p>".toList, ⟨some true, []⟩⟩
        = gradientTransformWrapper ⟨"<p>x</p>".toList, ⟨some true, [("theme", true)]⟩⟩ :=
  ⟨rfl,
    (gradient_deterministic_stateless
      ⟨"<p>x</p>".toList, ⟨some true, []⟩⟩
      ⟨"<p>x</p>".toList, ⟨some true, [("theme", true)]⟩⟩ rfl rfl).1⟩

/-- CLAIM C3 counterexample: the wrapper variant does not append the shade
token to the paragraph's class attribute.  On `<p class="note">x</p>` the
claim predicts the class attribute `class="note g-line g-l0"`, but the
wrapper variant produces `class="note g-line"` (the shade token goes on the
wrapper span instead), and the predicted attribute occurs nowhere in the
output. -/
theorem gradient_class_merge_wrapper_counterexample :
    gradientTransformWrapper ⟨"<p class=\"note\">x</p>".toList, ⟨some true, []⟩⟩
        = "<p class=\"note g-line\"><span class=\"g-clip g-l0\">x</span></p>".toList
    ∧ countOccs ("class=\"note g-line g-l0\"".toList)
        (gradientTransformWrapper ⟨"<p class=\"note\">x</p>".toList, ⟨some true, []⟩⟩)
      = 0 := by
  constructor <;> decide

/-- CLAIM C3 (amended): with the flag on, on a paragraph block with an
existing double-quoted class attribute the classes-only variant appends both
new tokens (`g-line` and the shade token) after the existing tokens,
preserving them verbatim and in order, while the wrapper variant appends only
the line marker to the class attribute (the shade token is placed on the
inserted clip wrapper span instead); when the class attribute is absent, each
variant synthesizes a class attribute containing exactly the tokens it
appends. -/
theorem gradient_class_merge_amended (cl i : List Char) (s : ViewSettings)
    (hs : s.gradientEnabled = some true)
    (hq : ∀ c ∈ cl, c ≠ '"') (hg : ∀ c ∈ cl, c ≠ '>')
    (hi : noCloseB i = true) :
    gradientTransformClassesOnly ⟨mkContent [([], classAttr cl, i)] [], s⟩
        = mkContent [([], classAttr (cl ++ ' ' :: gradientClass 0), i)] []
    ∧ gradientTransformWrapper ⟨mkContent [([], classAttr cl, i)] [], s⟩
        = mkContent [([], classAttr (cl ++ ' ' :: lineClass),
            if hasClip i then i else clipSpan 0 i)] []
    ∧ gradientTransformClassesOnly ⟨mkContent [([], [], i)] [], s⟩
        = mkContent [([], classAttr (gradientClass 0), i)] []
    ∧ gradientTransformWrapper ⟨mkContent [([], [], i)] [], s⟩
        = mkContent [([], classAttr lineClass,
            if hasClip i then i else clipSpan 0 i)] [] := by
  have hgood1 : GoodBlocks [([], classAttr cl, i)] := by
    intro b hb
    rw [List.mem_singleton] at hb
    subst hb
    exact ⟨by simp, classAttr_no_gt hg, hi⟩
  have hgood2 : GoodBlocks [(([] : List Char), ([] : List Char), i)] := by
    intro b hb
    rw [List.mem_singleton] at hb
    subst hb
    exact ⟨by simp, by simp, hi⟩
  have ht : ∀ c ∈ ([] : List Char), c ≠ '<' := by simp
  refine ⟨?_, ?_, ?_, ?_⟩
  · rw [classesOnly_transform_mkContent hs hgood1 ht]
    simp [mkRendered, mkContent, classesOnlyCallback_classAttr 0 i hq]
  · rw [wrapper_transform_mkContent hs hgood1 ht]
    simp [mkRendered, mkContent, wrapperCallback_classAttr 0 i hq]
  · rw [classesOnly_transform_mkContent hs hgood2 ht]
    simp [mkRendered, mkContent, classesOnlyCallback_noClass 0 i]
  · rw [wrapper_transform_mkContent hs hgood2 ht]
    simp [mkRendered, mkContent, wrapperCallback_noClass 0 i]

/-- Witness for the amended C3: concrete block `<p class="note">x</p>`, whose
class attribute becomes `note g-line g-l0` under the classes-only variant. -/
theorem gradient_class_merge_amended_witness :
    gradientTransformClassesOnly
        ⟨mkContent [([], classAttr ("note".toList), "x".toList)] [], ⟨some true, []⟩⟩
      = mkContent [([], classAttr ("note".toList ++ ' ' :: gradientClass 0),
          "x".toList)] [] :=
  (gradient_class_merge_amended ("note".toList) ("x".toList) ⟨some true, []⟩ rfl
    (by decide) (by decide) (by decide)).1

/-- CLAIM C10: with the flag on, a paragraph block whose class attribute is
written with single quotes is not detected by the class pattern (which
requires double quotes): both variants leave the original single-quoted
attribute in place on the tag and synthesize a second, double-quoted class
attribute after it containing only the tokens that variant adds. -/
theorem gradient_single_quote_class (cl i : List Char) (s : ViewSettings)
    (hs : s.gradientEnabled = some true)
    (hq : ∀ c ∈ cl, c ≠ '"') (hg : ∀ c ∈ cl, c ≠ '>')
    (hi : noCloseB i = true) :
    gradientTransformClassesOnly ⟨mkContent [([], classAttrSingle cl, i)] [], s⟩
        = mkContent [([], classAttrSingle cl ++ classAttr (gradientClass 0), i)] []
    ∧ gradientTransformWrapper ⟨mkContent [([], classAttrSingle cl, i)] [], s⟩
        = mkContent [([], classAttrSingle cl ++ classAttr lineClass,
            if hasClip i then i else clipSpan 0 i)] [] := by
  have hgood : GoodBlocks [([], classAttrSingle cl, i)] := by
    intro b hb
    rw [List.mem_singleton] at hb
    subst hb
    exact ⟨by simp, classAttrSingle_no_gt hg, hi⟩
  have ht : ∀ c ∈ ([] : List Char), c ≠ '<' := by simp
  constructor
  · rw [classesOnly_transform_mkContent hs hgood ht]
    simp [mkRendered, mkContent, classesOnlyCallback_singleQuote 0 i hq]
  · rw [wrapper_transform_mkContent hs hgood ht]
    simp [mkRendered, mkContent, wrapperCallback_singleQuote 0 i hq]

/-- Witness for C10: the concrete block `<p class='foo'>x</p>` keeps its
single-quoted attribute and gains `class="g-line g-l0"` next to it. -/
theorem gradient_single_quote_class_witness :
    gradientTransformClassesOnly
        ⟨mkContent [([], classAttrSingle ("foo".toList), "x".toList)] [], ⟨some true, []⟩⟩
      = mkContent [([], classAttrSingle ("foo".toList) ++ classAttr (gradientClass 0),
          "x".toList)] [] :=
  (gradient_single_quote_class ("foo".toList) ("x".toList) ⟨some true, []⟩ rfl
    (by decide) (by decide) (by decide)).1

/-! ### Re-application of the wrapper variant -/

/-- One wrapper-variant match preserves block well-formedness. -/
lemma goodBlock_wrapStep (k : Nat) {b : List Char × List Char × List Char}
    (hb : GoodBlock b) : GoodBlock (wrapStep k b) := by
  obtain ⟨hg, ha, hi⟩ := hb
  refine ⟨hg, wrapperAttrs_no_gt ha, ?_⟩
  simp only [wrapStep]
  by_cases h : hasClip b.2.2 = true
  · simp [h, hi]
  · simp only [h, Bool.false_eq_true, if_false]
    exact noCloseB_clipSpan k hi

/-- A wrapper-variant pass preserves well-formedness of the block list. -/
lemma goodBlocks_wrapBlocks : ∀ (k : Nat) (bs : List (List Char × List Char × List Char)),
    GoodBlocks bs → GoodBlocks (wrapBlocks k bs) := by
  intro k bs
  induction bs generalizing k with
  | nil => intro _ b hb; simp [wrapBlocks] at hb
  | cons b bs ih =>
    intro hgood b' hb'
    simp only [wrapBlocks, List.mem_cons] at hb'
    rcases hb' with h | h
    · subst h; exact goodBlock_wrapStep k (hgood b (by simp))
    · exact ih (k + 1) (fun x hx => hgood x (by simp [hx])) b' h

/-- Rewrapping a block a second time leaves its inner markup unchanged: the
guard detects the clip span inserted by the first pass. -/
lemma wrapStep_inner_stable (k k' : Nat) (b : List Char × List Char × List Char) :
    (wrapStep k' (wrapStep k b)).2.2 = (wrapStep k b).2.2 := by
  simp only [wrapStep]
  by_cases h : hasClip b.2.2 = true
  · simp [h]
  · simp only [h, Bool.false_eq_true, if_false, hasClip_clipSpan, if_true]

/-- A second wrapper-variant pass leaves every block's inner markup
unchanged. -/
lemma wrapBlocks_inner_stable : ∀ (k : Nat) (bs : List (List Char × List Char × List Char)),
    (wrapBlocks k (wrapBlocks k bs)).map (fun b => b.2.2)
      = (wrapBlocks k bs).map (fun b => b.2.2) := by
  intro k bs
  induction bs generalizing k with
  | nil => rfl
  | cons b bs ih =>
    simp only [wrapBlocks, List.map_cons, wrapStep_inner_stable k k b, ih (k + 1)]

/-- A pattern without `g` at its head never matches at a non-`g` position. -/
lemma countOccs_gclip_step {c : Char} (cs : List Char) (h : c ≠ 'g') :
    countOccs gClipMarker (c :: cs) = countOccs gClipMarker cs := by
  have hpre : gClipMarker.isPrefixOf (c :: cs) = false := by
    simp [gClipMarker, List.isPrefixOf]
    intro hgc
    exact absurd hgc.symm h
  simp [countOccs, hpre]

/-- Prefix tests for a `<`-free pattern are unaffected by text after a `<`. -/
lemma isPrefixOf_append_cons_lt {pat : List Char} (hp : ∀ c ∈ pat, c ≠ '<') :
    ∀ (z y : List Char), pat.isPrefixOf (z ++ '<' :: y) = pat.isPrefixOf z := by
  induction pat with
  | nil => intro z y; simp [List.isPrefixOf]
  | cons p ps ih =>
    intro z y
    cases z with
    | nil =>
      have hpne : p ≠ '<' := hp p (by simp)
      simp [List.isPrefixOf, hpne]
    | cons c z' =>
      simp only [List.cons_append, List.isPrefixOf, List.append_eq]
      rw [ih (fun d hd => hp d (by simp [hd])) z' y]

/-- Occurrence counting for a `<`-free pattern splits at a `<`. -/
lemma countOccs_append_cons_lt {pat : List Char} (hp : ∀ c ∈ pat, c ≠ '<') :
    ∀ (x y : List Char), countOccs pat (x ++ '<' :: y)
      = countOccs pat x + countOccs pat ('<' :: y) := by
  intro x y
  induction x with
  | nil => simp [countOccs]
  | cons c x ih =>
    have hpre : pat.isPrefixOf (c :: (x ++ '<' :: y)) = pat.isPrefixOf (c :: x) := by
      have h2 := isPrefixOf_append_cons_lt hp (c :: x) y
      rwa [List.cons_append] at h2
    simp only [List.cons_append, countOccs, List.append_eq]
    simp only [hpre, ih, countOccs]
    omega

/-- A freshly inserted wrapper span contains the clip marker exactly once
when the wrapped inner markup does not contain it. -/
lemma countOccs_gclip_clipSpan (k : Nat) {i : List Char}
    (h0 : countOccs gClipMarker i = 0) :
    countOccs gClipMarker (clipSpan k i) = 1 := by
  have hsplit : countOccs ['g', '-', 'c', 'l', 'i', 'p'] (i ++ ['<', '/', 's', 'p', 'a', 'n', '>'])
      = 0 := by
    have h1 := @countOccs_append_cons_lt ['g', '-', 'c', 'l', 'i', 'p']
      (by decide) i ['/', 's', 'p', 'a', 'n', '>']
    rw [h1, show countOccs ['g', '-', 'c', 'l', 'i', 'p'] i = 0 from h0]
    decide
  rcases digitChar_mod4 k with h | h | h | h <;>
  · rw [clipSpan_chain, h]
    simp only [countOccs, List.isPrefixOf]
    simp [hsplit, countOccs, gClipMarker]

/-- CLAIM C5: re-applying the wrapper variant (flag on) to its own prior
output yields exactly one clip wrapper per paragraph block, never nested or
duplicated: the double application renders each block with the same inner
markup as the single application (the guard prevents re-wrapping), and a
freshly wrapped block contains the clip marker exactly once. -/
theorem gradient_anti_double_wrap (bs : List (List Char × List Char × List Char))
    (t : List Char) (s : ViewSettings) (hs : s.gradientEnabled = some true)
    (hbs : GoodBlocks bs) (ht : ∀ c ∈ t, c ≠ '<') :
    gradientTransformWrapper ⟨gradientTransformWrapper ⟨mkContent bs t, s⟩, s⟩
        = mkContent (wrapBlocks 0 (wrapBlocks 0 bs)) t
    ∧ (wrapBlocks 0 (wrapBlocks 0 bs)).map (fun b => b.2.2)
        = (wrapBlocks 0 bs).map (fun b => b.2.2)
    ∧ ∀ b ∈ bs, ∀ k, hasClip b.2.2 = false → countOccs gClipMarker b.2.2 = 0 →
        (wrapStep k b).2.2 = clipSpan k b.2.2
        ∧ countOccs gClipMarker ((wrapStep k b).2.2) = 1 := by
  have hpass1 : gradientTransformWrapper ⟨mkContent bs t, s⟩
      = mkContent (wrapBlocks 0 bs) t := by
    rw [wrapper_transform_mkContent hs hbs ht, mkRendered_wrapperCallback]
  have hpass2 : gradientTransformWrapper ⟨mkContent (wrapBlocks 0 bs) t, s⟩
      = mkContent (wrapBlocks 0 (wrapBlocks 0 bs)) t := by
    rw [wrapper_transform_mkContent hs (goodBlocks_wrapBlocks 0 bs hbs) ht,
      mkRendered_wrapperCallback]
  refine ⟨by rw [hpass1, hpass2], wrapBlocks_inner_stable 0 bs, ?_⟩
  intro b _ k hclip hcount
  have hinner : (wrapStep k b).2.2 = clipSpan k b.2.2 := by
    simp [wrapStep, hclip]
  exact ⟨hinner, by rw [hinner]; exact countOccs_gclip_clipSpan k hcount⟩

/-- Witness for C5: two concrete plain blocks, double-applied; the first
block's wrapped inner carries the clip marker exactly once. -/
theorem gradient_anti_double_wrap_witness :
    gradientTransformWrapper ⟨gradientTransformWrapper
        ⟨mkContent [([], [], ['x']), ([], [], ['y'])] [], ⟨some true, []⟩⟩, ⟨some true, []⟩⟩
      = mkContent (wrapBlocks 0 (wrapBlocks 0 [([], [], ['x']), ([], [], ['y'])])) []
    ∧ countOccs gClipMarker
        ((wrapStep 0 (([], [], ['x']) : List Char × List Char × List Char)).2.2) = 1 := by
  have hbs : GoodBlocks [([], [], ['x']), ([], [], ['y'])] := by
    intro b hb
    simp only [List.mem_cons, List.not_mem_nil, or_false] at hb
    rcases hb with rfl | rfl
    · exact ⟨by decide, by decide, by decide⟩
    · exact ⟨by decide, by decide, by decide⟩
  have h := gradient_anti_double_wrap [([], [], ['x']), ([], [], ['y'])] [] ⟨some true, []⟩
    rfl hbs (by decide)
  exact ⟨h.1, (h.2.2 ([], [], ['x']) (by decide) 0 (by decide) (by decide)).2⟩

/-- CLAIM C9: in the wrapper variant a matched block still consumes exactly
one counter increment even when its inner markup already carries a clip span
(the increment happens before the anti-double-wrap check), so the rendering
of all subsequent blocks — in particular their shade indices, which resume at
counter 1 — is the same term whether the first block's inner markup is
already-wrapped `i` or fresh `j`. -/
theorem gradient_counter_before_clip_guard
    (g a i j t : List Char) (bs : List (List Char × List Char × List Char))
    (s : ViewSettings) (hs : s.gradientEnabled = some true)
    (hb : GoodBlock (g, a, i)) (hb' : GoodBlock (g, a, j))
    (hbs : GoodBlocks bs) (ht : ∀ c ∈ t, c ≠ '<') :
    gradientTransformWrapper ⟨mkContent ((g, a, i) :: bs) t, s⟩
        = g ++ (wrapperCallback 0 a i ++ mkRendered wrapperCallback 1 bs t)
    ∧ gradientTransformWrapper ⟨mkContent ((g, a, j) :: bs) t, s⟩
        = g ++ (wrapperCallback 0 a j ++ mkRendered wrapperCallback 1 bs t) := by
  have h1 : GoodBlocks ((g, a, i) :: bs) := by
    intro b hbm
    rcases List.mem_cons.mp hbm with rfl | hmem
    · exact hb
    · exact hbs b hmem
  have h2 : GoodBlocks ((g, a, j) :: bs) := by
    intro b hbm
    rcases List.mem_cons.mp hbm with rfl | hmem
    · exact hb'
    · exact hbs b hmem
  constructor
  · rw [wrapper_transform_mkContent hs h1 ht]
    simp [mkRendered]
  · rw [wrapper_transform_mkContent hs h2 ht]
    simp [mkRendered]

/-- Witness for C9: the first block already wrapped (`clipSpan 0 ['x']` as
inner markup), one following block; the tail rendering starts at counter 1. -/
theorem gradient_counter_before_clip_guard_witness :
    gradientTransformWrapper
        ⟨mkContent [([], [], clipSpan 0 ['x']), ([], [], ['y'])] [], ⟨some true, []⟩⟩
      = [] ++ (wrapperCallback 0 [] (clipSpan 0 ['x'])
          ++ mkRendered wrapperCallback 1 [([], [], ['y'])] []) := by
  have hbs : GoodBlocks [(([] : List Char), ([] : List Char), ['y'])] := by
    intro b hb
    rw [List.mem_singleton] at hb
    subst hb
    exact ⟨by decide, by decide, by decide⟩
  exact (gradient_counter_before_clip_guard [] [] (clipSpan 0 ['x']) ['x'] []
    [([], [], ['y'])] ⟨some true, []⟩ rfl ⟨by decide, by decide, by decide⟩
    ⟨by decide, by decide, by decide⟩ hbs (by decide)).1

/-! ### The scan decomposition of arbitrary content -/

/-- Inversion for the lazy close-tag search: the list splits at the first
close tag. -/
lemma findCloseP_decomp : ∀ {l i r : List Char}, findCloseP l = some (i, r) →
    ∃ q, pTagChar q = true ∧ l = i ++ '<' :: '/' :: q :: '>' :: r := by
  intro l
  induction l with
  | nil => intro i r h; simp [findCloseP] at h
  | cons c cs ih =>
    intro i r h
    simp only [findCloseP] at h
    by_cases hs : startsCloseP (c :: cs) = true
    · rw [if_pos hs] at h
      obtain ⟨q, t, hq, hshape⟩ := startsCloseP_elim hs
      have hc : c = '<' := by injection hshape
      have hcs : cs = '/' :: q :: '>' :: t := by injection hshape
      have hdrop : cs.drop 3 = t := by rw [hcs]; rfl
      rw [hdrop] at h
      simp at h
      obtain ⟨hi, hr⟩ := h
      subst hi; subst hr
      exact ⟨q, hq, by rw [hc, hcs]; simp⟩
    · rw [if_neg hs] at h
      rcases hrec : findCloseP cs with _ | ⟨⟨i', r'⟩⟩
      · rw [hrec] at h; simp at h
      · rw [hrec] at h
        simp at h
        obtain ⟨hi, hr⟩ := h
        obtain ⟨q, hq, hcs⟩ := ih hrec
        subst hi; subst hr
        exact ⟨q, hq, by rw [hcs]; simp⟩

/-- Inversion for a successful paragraph match: the list is exactly an open
tag (with `>`-free attributes), the inner markup, the close tag and the
rest. -/
lemma matchP_decomp : ∀ {l a i r : List Char}, matchP l = some (a, i, r) →
    ∃ p q, pTagChar p = true ∧ pTagChar q = true ∧ (∀ c ∈ a, c ≠ '>') ∧
      l = '<' :: p :: (a ++ '>' :: (i ++ '<' :: '/' :: q :: '>' :: r)) := by
  intro l a i r h
  rcases l with _ | ⟨c, _ | ⟨p, rest⟩⟩
  · simp [matchP] at h
  · simp [matchP] at h
  · simp only [matchP] at h
    by_cases hc : (c == '<' && pTagChar p) = true
    · rw [if_pos hc] at h
      rcases hta : takeAttrs rest with _ | ⟨⟨a', rest'⟩⟩
      · rw [hta] at h
        replace h : (none : Option (List Char × List Char × List Char)) = some (a, i, r) := h
        simp at h
      · rw [hta] at h
        replace h : (match findCloseP rest' with
          | some (inner, r) => some (a', inner, r)
          | none => none) = some (a, i, r) := h
        rcases hfc : findCloseP rest' with _ | ⟨⟨i', r'⟩⟩
        · rw [hfc] at h
          replace h : (none : Option (List Char × List Char × List Char)) = some (a, i, r) := h
          simp at h
        · rw [hfc] at h
          replace h : some (a', i', r') = some (a, i, r) := h
          simp at h
          obtain ⟨ha, hi, hr⟩ := h
          subst ha; subst hi; subst hr
          obtain ⟨hrest, hmem⟩ := takeAttrs_decomp hta
          obtain ⟨q, hq, hrest'⟩ := findCloseP_decomp hfc
          simp only [Bool.and_eq_true, beq_iff_eq] at hc
          exact ⟨p, q, hc.2, hq, hmem, by rw [hc.1, hrest, hrest']⟩
    · rw [if_neg hc] at h; simp at h

/-- A paragraph match consumes at least the seven tag characters. -/
lemma matchP_rest_length {l a i r : List Char} (h : matchP l = some (a, i, r)) :
    r.length + 7 ≤ l.length := by
  obtain ⟨p, q, -, -, -, hl⟩ := matchP_decomp h
  rw [hl]; simp; omega

/-- The matched span recorded by the scan is exactly the open tag, inner
markup and close tag. -/
lemma matchP_take : ∀ {l a i r : List Char}, matchP l = some (a, i, r) →
    ∃ p q, pTagChar p = true ∧ pTagChar q = true ∧ (∀ c ∈ a, c ≠ '>') ∧
      l.take (l.length - r.length)
        = '<' :: p :: (a ++ '>' :: (i ++ ['<', '/', q, '>'])) := by
  intro l a i r h
  obtain ⟨p, q, hp, hq, hmem, hl⟩ := matchP_decomp h
  refine ⟨p, q, hp, hq, hmem, ?_⟩
  have hl2 : l = ('<' :: p :: (a ++ '>' :: (i ++ ['<', '/', q, '>']))) ++ r := by
    rw [hl]; simp
  have hlen : (('<' :: p :: (a ++ '>' :: (i ++ ['<', '/', q, '>']))) ++ r).length - r.length
      = ('<' :: p :: (a ++ '>' :: (i ++ ['<', '/', q, '>']))).length := by
    simp
    omega
  rw [hl2, hlen, List.take_left]

/-- Reconstruction: the scan decomposes the content into unmatched text and
matched spans that concatenate back, in document order, to the exact input.
The matches are therefore non-overlapping and everything outside them is
preserved byte-for-byte. -/
lemma parseAux_join : ∀ (fuel : Nat) (l : List Char), l.length ≤ fuel →
    joinParsed (parseAux fuel l).1 (parseAux fuel l).2 = l := by
  intro fuel
  induction fuel with
  | zero =>
    intro l hl
    have : l = [] := List.eq_nil_of_length_eq_zero (by omega)
    subst this; rfl
  | succ fu ih =>
    intro l hl
    cases l with
    | nil => rfl
    | cons c cs =>
      rcases hm : matchP (c :: cs) with _ | ⟨⟨a, i, rest⟩⟩
      · simp only [parseAux, hm]
        have hjoin := ih cs (by simp at hl; omega)
        rcases hp : parseAux fu cs with ⟨bs, t⟩
        rw [hp] at hjoin
        cases bs with
        | nil =>
          simp only [joinParsed] at hjoin ⊢
          rw [hjoin]
        | cons b bs' =>
          simp only [joinParsed] at hjoin ⊢
          rw [← hjoin]
          simp
      · simp only [parseAux, hm]
        have hrlen := matchP_rest_length hm
        have hjoin := ih rest (by
          simp only [List.length_cons] at hl
          simp only [List.length_cons] at hrlen
          omega)
        obtain ⟨p', q', hp2, hq2, hmem2, hl2⟩ := matchP_decomp hm
        have hM : c :: cs = ('<' :: p' :: (a ++ '>' :: (i ++ ['<', '/', q', '>']))) ++ rest := by
          rw [hl2]; simp
        have htake : (c :: cs).take ((c :: cs).length - rest.length)
            = '<' :: p' :: (a ++ '>' :: (i ++ ['<', '/', q', '>'])) := by
          rw [hM]
          have hlen : ((('<' :: p' :: (a ++ '>' :: (i ++ ['<', '/', q', '>']))) ++ rest).length
              - rest.length)
              = ('<' :: p' :: (a ++ '>' :: (i ++ ['<', '/', q', '>']))).length := by
            simp
            omega
          rw [hlen, List.take_left]
        simp only [joinParsed]
        rw [hjoin, htake, hM]
        simp

/-- Every block recorded by the scan has a matched span of exactly the block
shape: open tag with the captured attributes, captured inner markup, close
tag. -/
lemma parseAux_matched : ∀ (fuel : Nat) (l : List Char) (b : PBlock),
    b ∈ (parseAux fuel l).1 →
    ∃ p q, pTagChar p = true ∧ pTagChar q = true ∧
      b.matched = '<' :: p :: (b.attrs ++ '>' :: (b.inner ++ ['<', '/', q, '>'])) := by
  intro fuel
  induction fuel with
  | zero => intro l b hb; cases l <;> simp [parseAux] at hb
  | succ fu ih =>
    intro l b hb
    cases l with
    | nil => simp [parseAux] at hb
    | cons c cs =>
      rcases hm : matchP (c :: cs) with _ | ⟨⟨a, i, rest⟩⟩
      · simp only [parseAux, hm] at hb
        rcases hp : parseAux fu cs with ⟨bs, t⟩
        rw [hp] at hb
        cases bs with
        | nil => simp at hb
        | cons b0 bs' =>
          simp only [List.mem_cons] at hb
          rcases hb with rfl | hb2
          · have h0 := ih cs b0 (by rw [hp]; simp)
            obtain ⟨p, q, hp1, hq1, hm1⟩ := h0
            exact ⟨p, q, hp1, hq1, hm1⟩
          · exact ih cs b (by rw [hp]; simp [hb2])
      · simp only [parseAux, hm, List.mem_cons] at hb
        rcases hb with rfl | hb2
        · obtain ⟨p, q, hp1, hq1, -, htake⟩ := matchP_take hm
          exact ⟨p, q, hp1, hq1, htake⟩
        · exact ih rest b hb2

/-- The global replace equals the rendering of the scan: unmatched text is
copied verbatim and each match is replaced by the callback at its threaded
counter value. -/
lemma replace_eq_renderParsed (f : Nat → List Char → List Char → List Char) :
    ∀ (fuel k : Nat) (l : List Char),
      replaceParagraphsAux f fuel k l
        = renderParsed f k (parseAux fuel l).1 (parseAux fuel l).2 := by
  intro fuel
  induction fuel with
  | zero => intro k l; cases l <;> rfl
  | succ fu ih =>
    intro k l
    cases l with
    | nil => rfl
    | cons c cs =>
      rcases hm : matchP (c :: cs) with _ | ⟨⟨a, i, rest⟩⟩
      · simp only [replaceParagraphsAux, parseAux, hm]
        have hrec := ih k cs
        rcases hp : parseAux fu cs with ⟨bs, t⟩
        rw [hp] at hrec
        cases bs with
        | nil =>
          simp only [renderParsed] at hrec ⊢
          rw [hrec]
        | cons b0 bs' =>
          simp only [renderParsed] at hrec ⊢
          rw [hrec]
          simp
      · simp only [replaceParagraphsAux, parseAux, hm, renderParsed]
        rw [ih (k + 1) rest]
        simp

/-- The counter values passed to the callback are consecutive, one per match,
starting at the initial value. -/
lemma scanCountersAux_eq : ∀ (fuel k : Nat) (l : List Char),
    scanCountersAux fuel k l = List.range' k ((parseAux fuel l).1.length) := by
  intro fuel
  induction fuel with
  | zero => intro k l; cases l <;> rfl
  | succ fu ih =>
    intro k l
    cases l with
    | nil => rfl
    | cons c cs =>
      rcases hm : matchP (c :: cs) with _ | ⟨⟨a, i, rest⟩⟩
      · simp only [scanCountersAux, parseAux, hm]
        have hrec := ih k cs
        rcases hp : parseAux fu cs with ⟨bs, t⟩
        rw [hp] at hrec
        cases bs with
        | nil => simpa using hrec
        | cons b0 bs' => simpa using hrec
      · simp only [scanCountersAux, parseAux, hm]
        rw [ih (k + 1) rest]
        rw [List.length_cons]
        exact (List.range'_succ k ((parseAux fu rest).1.length) 1).symm

/-- CLAIM C2: with the flag on, the counter values attached to the processed
blocks are `0, 1, 2, ...` (one per match, in document order), so the shade
indices (`counter % 4`, `PALETTE_SIZE = 4`) follow `0,1,2,3,0,1,...`; in
particular five consecutive `<p>` blocks receive `0,1,2,3,0`. -/
theorem gradient_palette_cycling :
    (∀ content : List Char,
        scanCounters content = List.range ((parseBlocks content).1.length))
    ∧ (∀ content : List Char, shadeIndices content
        = (List.range ((parseBlocks content).1.length)).map (fun j => j % 4))
    ∧ shadeIndices ("<p>a</p><p>b</p><p>c</p><p>d</p><p>e</p>".toList) = [0, 1, 2, 3, 0] := by
  have h1 : ∀ content : List Char,
      scanCounters content = List.range ((parseBlocks content).1.length) := by
    intro content
    simp only [scanCounters, parseBlocks]
    rw [scanCountersAux_eq, ← List.range_eq_range']
  refine ⟨h1, ?_, by decide⟩
  intro content
  simp only [shadeIndices]
  rw [h1]

/-- CLAIM C7: with the flag on, both variants equal the rendering of the scan
in which all text outside matched blocks (the `pre` fields and the trailing
text) passes through verbatim; in particular a content with no match is
returned exactly unchanged. -/
theorem gradient_frame_passthrough (s : ViewSettings)
    (hs : s.gradientEnabled = some true) :
    (∀ content : List Char, gradientTransformClassesOnly ⟨content, s⟩
        = renderParsed classesOnlyCallback 0 (parseBlocks content).1 (parseBlocks content).2)
    ∧ (∀ content : List Char, gradientTransformWrapper ⟨content, s⟩
        = renderParsed wrapperCallback 0 (parseBlocks content).1 (parseBlocks content).2)
    ∧ (∀ content : List Char, (parseBlocks content).1 = [] →
        gradientTransformClassesOnly ⟨content, s⟩ = content
        ∧ gradientTransformWrapper ⟨content, s⟩ = content) := by
  have hco : ∀ content : List Char, gradientTransformClassesOnly ⟨content, s⟩
      = renderParsed classesOnlyCallback 0 (parseBlocks content).1 (parseBlocks content).2 := by
    intro content
    simp only [gradientTransformClassesOnly, hs, Option.getD_some, if_true, parseBlocks]
    exact replace_eq_renderParsed classesOnlyCallback content.length 0 content
  have hw : ∀ content : List Char, gradientTransformWrapper ⟨content, s⟩
      = renderParsed wrapperCallback 0 (parseBlocks content).1 (parseBlocks content).2 := by
    intro content
    simp only [gradientTransformWrapper, hs, Option.getD_some, if_true, parseBlocks]
    exact replace_eq_renderParsed wrapperCallback content.length 0 content
  refine ⟨hco, hw, ?_⟩
  intro content hnil
  simp only [parseBlocks] at hnil
  have hjoin := parseAux_join content.length content le_rfl
  rw [hnil] at hjoin
  simp only [joinParsed] at hjoin
  constructor
  · rw [hco content]
    simp only [parseBlocks, hnil, renderParsed]
    exact hjoin
  · rw [hw content]
    simp only [parseBlocks, hnil, renderParsed]
    exact hjoin

/-- Witness for C7: a concrete content with no paragraph-block match passes
through the flag-on transformer unchanged. -/
theorem gradient_frame_passthrough_witness :
    gradientTransformClassesOnly
        ⟨"plain text, no paragraph blocks".toList, ⟨some true, []⟩⟩
      = "plain text, no paragraph blocks".toList :=
  ((gradient_frame_passthrough ⟨some true, []⟩ rfl).2.2
    ("plain text, no paragraph blocks".toList) (by decide)).1

/-- CLAIM C8: the scan finds non-overlapping matches in document order — the
unmatched text and matched spans concatenate back to the exact input — each
matched span being one paragraph block (open tag + attributes, inner markup,
close tag); the counter increments exactly once per match; and on the nested
input `<p>a<p>b</p></p>` there is exactly one match (the inner block inside
the match's span is not separately counted) with the final `</p>` left as
trailing text. -/
theorem gradient_outermost_scan :
    (∀ content : List Char,
        joinParsed (parseBlocks content).1 (parseBlocks content).2 = content)
    ∧ (∀ content : List Char, ∀ b ∈ (parseBlocks content).1,
        ∃ p q, pTagChar p = true ∧ pTagChar q = true ∧
          b.matched = '<' :: p :: (b.attrs ++ '>' :: (b.inner ++ ['<', '/', q, '>'])))
    ∧ (∀ content : List Char,
        scanCounters content = List.range ((parseBlocks content).1.length))
    ∧ (parseBlocks ("<p>a<p>b</p></p>".toList)).1.length = 1
    ∧ (parseBlocks ("<p>a<p>b</p></p>".toList)).2 = "</p>".toList := by
  refine ⟨?_, ?_, ?_, by decide, by decide⟩
  · intro content
    exact parseAux_join content.length content le_rfl
  · intro content b hb
    exact parseAux_matched content.length content b hb
  · intro content
    simp only [scanCounters, parseBlocks]
    rw [scanCountersAux_eq, ← List.range_eq_range']

/-- Witness for C8: the single block of `<p>hi</p>ok` is recorded with its
exact span. -/
theorem gradient_outermost_scan_witness :
    ∃ p q, pTagChar p = true ∧ pTagChar q = true ∧
      (⟨[], "<p>hi</p>".toList, [], "hi".toList⟩ : PBlock).matched
        = '<' :: p :: ((⟨[], "<p>hi</p>".toList, [], "hi".toList⟩ : PBlock).attrs
            ++ '>' :: ((⟨[], "<p>hi</p>".toList, [], "hi".toList⟩ : PBlock).inner
            ++ ['<', '/', q, '>'])) :=
  gradient_outermost_scan.2.1 ("<p>hi</p>ok".toList)
    ⟨[], "<p>hi</p>".toList, [], "hi".toList⟩ (by decide)
